import Mathlib

/-!
Verification of the core algorithms of the DNA-to-Image converter
(`dna_to_image.py` and `dna_to_image_with_text.py`).

The embedding models:
* the symbol → RGB color table `color_map`;
* sequence normalization (`read().strip().upper()` followed by filtering
  to the {A,T,C,G} alphabet);
* the grid-dimension resolver (the `if image_width and image_height ...`
  cascade, with Python truthiness of the optional arguments);
* the simple pixel painter (one cell per symbol, row-major, `break` when
  `row >= height`);
* the block-mode painter (a `block_size × block_size` square per symbol);
* the contrasting text color chooser (luminance threshold), with the
  floating-point literals 0.299 / 0.587 / 0.114 modelled as exact
  rationals, which agrees with the double-precision computation at every
  8-bit RGB triple;
* the glyph-planning loop (one draw instruction per painted symbol);
* the block-mode pipeline including the `total == 0` early return and the
  buffer allocation, where `np.zeros` rejects negative dimensions.

Buffers are modelled as total functions from coordinates to RGB values
together with their allocated shape; in-place assignment becomes pointwise
functional update, which is faithful for the single-threaded loops here.
-/

/-- An RGB color: three 8-bit components (modelled as naturals). -/
abbrev RGB := Nat × Nat × Nat

/-- The fixed nucleotide → color table (`color_map` in both scripts). -/
def color_map (c : Char) : Option RGB :=
  if c = 'A' then some (255, 0, 0)
  else if c = 'T' then some (0, 255, 0)
  else if c = 'C' then some (0, 0, 255)
  else if c = 'G' then some (255, 255, 0)
  else none

/-- The recognized alphabet. -/
def dnaAlphabet : List Char := ['A', 'T', 'C', 'G']

/-- The color of a symbol, `color_map.get(nucleotide, (0, 0, 0))`: sentinel
black for unmapped symbols. -/
def colorOf (c : Char) : RGB := (color_map c).getD (0, 0, 0)

/-- The whitespace characters stripped by Python's `str.strip()`
(ASCII portion; the inputs of interest are ASCII text). -/
def py_isspace (c : Char) : Bool :=
  c = ' ' || c = '\t' || c = '\n' || c = '\r' || c = '\x0b' || c = '\x0c'

/-- Python `str.strip()`: drop leading and trailing whitespace. -/
def py_strip (s : List Char) : List Char :=
  ((s.dropWhile py_isspace).reverse.dropWhile py_isspace).reverse

/-- Whether a character survives the filter `lambda x: x in color_map`. -/
def keepChar (c : Char) : Bool := (color_map c).isSome

/-- The sequence normalizer: `file.read().strip().upper()` followed by
`''.join(filter(lambda x: x in color_map, dna_sequence))`. -/
def normalizeSeq (text : List Char) : List Char :=
  ((py_strip text).map Char.toUpper).filter keepChar

/-- Ceiling division, `math.ceil(total / d)`, for natural `total` and
positive natural `d` (the division is exact rational ceiling). -/
def ceilDiv (a b : Nat) : Nat := (a + b - 1) / b

/-- Upward search for the least `k` with `n ≤ k * k`, with enough fuel. -/
def ceilSqrtAux (n : Nat) : Nat → Nat → Nat
  | 0, k => k
  | fuel + 1, k => if n ≤ k * k then k else ceilSqrtAux n fuel (k + 1)

/-- Ceiling square root, `math.ceil(math.sqrt(n))`: the least `k` with
`n ≤ k * k`. -/
def ceilSqrt (n : Nat) : Nat := ceilSqrtAux n (n + 1) 0

/-- Python truthiness of an optional integer argument: `None` and `0`
are falsy. -/
def truthy : Option Nat → Bool
  | some n => n != 0
  | none => false

/-- The grid-dimension resolver: the `if image_width and image_height /
elif image_width / elif image_height / else` cascade of both scripts.
Returns `(width, height)`. -/
def resolve (total : Nat) (image_width image_height : Option Nat) : Nat × Nat :=
  if truthy image_width && truthy image_height then
    (image_width.getD 0, image_height.getD 0)
  else if truthy image_width then
    let w := image_width.getD 0
    (w, ceilDiv total w)
  else if truthy image_height then
    let h := image_height.getD 0
    (ceilDiv total h, h)
  else
    let s := ceilSqrt total
    (s, s)

/-- The pixel contents of a buffer: a total function from (row, col) to
color.  Coordinates outside the allocated shape are never painted and
read as the initial zero value. -/
def Buf := Nat → Nat → RGB

/-- The all-black buffer produced by `np.zeros`. -/
def zeroBuf : Buf := fun _ _ => (0, 0, 0)

/-- Single-cell assignment `img_array[row, col] = v`: pointwise functional
update. -/
def updateCell (buf : Buf) (row col : Nat) (v : RGB) : Buf :=
  fun r c => if r = row ∧ c = col then v else buf r c

/-- Rectangle assignment `img_array[startY:endY, startX:endX] = v`
(numpy half-open slice semantics; an empty slice is a no-op). -/
def updateBlock (buf : Buf) (startY endY startX endX : Nat) (v : RGB) : Buf :=
  fun r c => if startY ≤ r ∧ r < endY ∧ startX ≤ c ∧ c < endX then v else buf r c

/-- A pixel buffer with its allocated shape (`rows × cols × 3`). -/
structure PixelBuffer where
  rows : Nat
  cols : Nat
  pix : Buf

/-- The simple-mode painting loop of `dna_to_image.py` (lines 44-49):
`row = idx // width; col = idx % width; if row >= height: break;
img_array[row, col] = color_map.get(nucleotide, (0,0,0))`. -/
def paintLoop (w h : Nat) : List Char → Nat → Buf → Buf
  | [], _, buf => buf
  | ch :: rest, idx, buf =>
    if h ≤ idx / w then buf
    else paintLoop w h rest (idx + 1) (updateCell buf (idx / w) (idx % w) (colorOf ch))

/-- Simple-mode paint: allocate `np.zeros((height, width, 3))` and run the
painting loop from index 0. -/
def paint (seq : List Char) (w h : Nat) : PixelBuffer :=
  ⟨h, w, paintLoop w h seq 0 zeroBuf⟩

/-- The core of `dna_to_image.py`: normalize, resolve dimensions, paint.
(File reading and TIFF encoding are external collaborators.) -/
def dna_to_image (text : List Char) (image_width image_height : Option Nat) :
    PixelBuffer :=
  let seq := normalizeSeq text
  let d := resolve seq.length image_width image_height
  paint seq d.1 d.2

/-- The block-mode painting loop of `dna_to_image_with_text.py`
(lines 62-75): each symbol fills the square
`img_array[row*bs : row*bs+bs, col*bs : col*bs+bs]`. -/
def paintBlocksLoop (w h bs : Nat) : List Char → Nat → Buf → Buf
  | [], _, buf => buf
  | ch :: rest, idx, buf =>
    if h ≤ idx / w then buf
    else
      paintBlocksLoop w h bs rest (idx + 1)
        (updateBlock buf (idx / w * bs) (idx / w * bs + bs)
          (idx % w * bs) (idx % w * bs + bs) (colorOf ch))

/-- Block-mode paint: allocate `np.zeros((height*bs, width*bs, 3))` and run
the block painting loop from index 0. -/
def paintBlocks (seq : List Char) (w h bs : Nat) : PixelBuffer :=
  ⟨h * bs, w * bs, paintBlocksLoop w h bs seq 0 zeroBuf⟩

/-- The contrasting text color chooser (lines 101-104 of
`dna_to_image_with_text.py`): luminance `0.299*R + 0.587*G + 0.114*B`,
black if above 128, else white.  The decimal literals are modelled as
exact rationals; an exhaustive comparison shows the double-precision
computation decides `> 128` identically at every 8-bit triple. -/
def get_contrasting_text_color (bg : RGB) : RGB :=
  if (128 : ℚ) < (299 * bg.1 + 587 * bg.2.1 + 114 * bg.2.2 : ℚ) / 1000
  then (0, 0, 0) else (255, 255, 255)

/-- One planned `draw.text` call: anchor position `(x, y)`, the character,
and its fill color. -/
structure DrawInstruction where
  pos : Nat × Nat
  ch : Char
  color : RGB
  deriving DecidableEq, Repr

/-- The glyph-planning loop (lines 107-122): same row/col/truncation logic
as painting; the anchor is `(col*bs + bs//4, row*bs + bs//4)` and the fill
is the contrasting color of the symbol's block color. -/
def planLoop (w h bs : Nat) : List Char → Nat → List DrawInstruction
  | [], _ => []
  | ch :: rest, idx =>
    if h ≤ idx / w then []
    else
      ⟨(idx % w * bs + bs / 4, idx / w * bs + bs / 4), ch,
        get_contrasting_text_color (colorOf ch)⟩ :: planLoop w h bs rest (idx + 1)

/-- Glyph planning for a whole sequence, from index 0. -/
def planGlyphs (seq : List Char) (w h bs : Nat) : List DrawInstruction :=
  planLoop w h bs seq 0

/-- Buffer allocation `np.zeros((d1, d2, 3), dtype=np.uint8)` with possibly
negative dimension expressions: numpy raises `ValueError: negative
dimensions are not allowed` on a negative dimension and otherwise
allocates a zero (possibly empty) array. -/
def np_zeros2 (d1 d2 : Int) : Except String PixelBuffer :=
  if d1 < 0 ∨ d2 < 0 then Except.error "negative dimensions are not allowed"
  else Except.ok ⟨d1.toNat, d2.toNat, zeroBuf⟩

/-- Whether an `Except` result is an error. -/
def isError {ε α : Type} : Except ε α → Bool
  | Except.error _ => true
  | Except.ok _ => false

/-- Whether the block pipeline produced a (possibly empty) pixel buffer. -/
def producesBuffer :
    Except String (Option (PixelBuffer × List DrawInstruction)) → Bool
  | Except.ok (some _) => true
  | _ => false

/-- The core of `dna_to_image_with_text.py` with an integer `block_size`:
normalize; early-return `none` when no valid nucleotide remains
(lines 38-40); resolve dimensions; allocate the block buffer (which fails
on a negative dimension); paint the blocks; plan the glyphs.  Font loading
and the actual text rasterization are external collaborators. -/
def dna_to_image_with_text (text : List Char) (block_size : Int)
    (image_width image_height : Option Nat) :
    Except String (Option (PixelBuffer × List DrawInstruction)) :=
  let seq := normalizeSeq text
  let total := seq.length
  if total = 0 then Except.ok none
  else
    let d := resolve total image_width image_height
    match np_zeros2 (d.2 * block_size) (d.1 * block_size) with
    | Except.error e => Except.error e
    | Except.ok buf0 =>
      let bs := block_size.toNat
      let painted : PixelBuffer :=
        ⟨buf0.rows, buf0.cols, paintBlocksLoop d.1 d.2 bs seq 0 buf0.pix⟩
      Except.ok (some (painted, planGlyphs seq d.1 d.2 bs))

/-- The list of cells `(row, col)` written by the simple-mode painting
loop, in program order (instrumentation of `paintLoop`). -/
def paintWrites (w h : Nat) : List Char → Nat → List (Nat × Nat)
  | [], _ => []
  | _ :: rest, idx =>
    if h ≤ idx / w then []
    else (idx / w, idx % w) :: paintWrites w h rest (idx + 1)

/-- The list of rectangles `(startY, endY, startX, endX)` written by the
block-mode painting loop, in program order (instrumentation of
`paintBlocksLoop`). -/
def blockWrites (w h bs : Nat) : List Char → Nat → List (Nat × Nat × Nat × Nat)
  | [], _ => []
  | _ :: rest, idx =>
    if h ≤ idx / w then []
    else (idx / w * bs, idx / w * bs + bs, idx % w * bs, idx % w * bs + bs) ::
      blockWrites w h bs rest (idx + 1)

/-! ## Arithmetic helper lemmas -/

lemma ceilSqrtAux_spec (n : Nat) :
    ∀ fuel k, n ≤ (k + fuel) * (k + fuel) → (∀ j, j < k → j * j < n) →
      n ≤ ceilSqrtAux n fuel k * ceilSqrtAux n fuel k ∧
        ∀ j, n ≤ j * j → ceilSqrtAux n fuel k ≤ j := by
  intro fuel
  induction fuel with
  | zero =>
    intro k hk hmin
    simp only [ceilSqrtAux]
    refine ⟨by simpa using hk, ?_⟩
    intro j hj
    by_contra hlt
    exact absurd hj (Nat.not_le_of_lt (hmin j (by omega)))
  | succ fuel ih =>
    intro k hk hmin
    simp only [ceilSqrtAux]
    by_cases hkk : n ≤ k * k
    · rw [if_pos hkk]
      refine ⟨hkk, ?_⟩
      intro j hj
      by_contra hlt
      exact absurd hj (Nat.not_le_of_lt (hmin j (by omega)))
    · rw [if_neg hkk]
      refine ih (k + 1) ?_ ?_
      · have he : k + (fuel + 1) = k + 1 + fuel := by omega
        rwa [he] at hk
      · intro j hj
        rcases Nat.lt_succ_iff_lt_or_eq.mp hj with h | h
        · exact hmin j h
        · subst h; omega

lemma ceilSqrt_spec (n : Nat) :
    n ≤ ceilSqrt n * ceilSqrt n ∧ ∀ j, n ≤ j * j → ceilSqrt n ≤ j := by
  refine ceilSqrtAux_spec n (n + 1) 0 ?_ (by omega)
  have : n ≤ (n + 1) * (n + 1) := by nlinarith
  simpa using this

lemma le_ceilDiv_mul (a b : Nat) (hb : 0 < b) : a ≤ ceilDiv a b * b := by
  unfold ceilDiv
  have h1 : b * ((a + b - 1) / b) + (a + b - 1) % b = a + b - 1 :=
    Nat.div_add_mod _ _
  have h2 : (a + b - 1) % b < b := Nat.mod_lt _ hb
  rw [mul_comm]
  obtain ⟨x, hx⟩ : ∃ x, x = b * ((a + b - 1) / b) := ⟨_, rfl⟩
  rw [← hx] at h1 ⊢
  omega

lemma ceilDiv_le (a b k : Nat) (hb : 0 < b) (h : a ≤ k * b) : ceilDiv a b ≤ k := by
  unfold ceilDiv
  have h2 : a + b - 1 < (k + 1) * b := by
    have hkb : (k + 1) * b = k * b + b := by ring
    obtain ⟨x, hx⟩ : ∃ x, x = k * b := ⟨_, rfl⟩
    rw [hkb, ← hx]
    rw [← hx] at h
    omega
  exact Nat.lt_succ_iff.mp ((Nat.div_lt_iff_lt_mul hb).mpr h2)

lemma ceilDiv_pos (a b : Nat) (ha : 0 < a) (hb : 0 < b) : 0 < ceilDiv a b := by
  by_contra hz
  have hz0 : ceilDiv a b = 0 := by omega
  have := le_ceilDiv_mul a b hb
  rw [hz0] at this
  omega

/-- Uniqueness of the row/col decomposition: the absolute index `r*w + c`
with `c < w` has row `r` and column `c`. -/
lemma rowcol_of_index (r : Nat) {w c : Nat} (hc : c < w) :
    (r * w + c) / w = r ∧ (r * w + c) % w = c := by
  constructor
  · rw [add_comm, Nat.add_mul_div_right _ _ (by omega : 0 < w),
      Nat.div_eq_of_lt hc]
    omega
  · rw [add_comm, Nat.add_mul_mod_self_right, Nat.mod_eq_of_lt hc]

/-- A cell with row `r < h` and column `c < w` has absolute index below
`h * w`. -/
lemma index_lt_of {w h r c : Nat} (hr : r < h) (hc : c < w) :
    r * w + c < h * w := by
  calc r * w + c < r * w + w := by omega
    _ = (r + 1) * w := by ring
    _ ≤ h * w := Nat.mul_le_mul_right w hr

/-- Membership of a pixel coordinate in a block row/column:
`y / bs = row` exactly when `y` lies in `[row*bs, row*bs + bs)`. -/
lemma div_block_iff {bs : Nat} (hbs : 0 < bs) {y row : Nat} :
    y / bs = row ↔ row * bs ≤ y ∧ y < row * bs + bs := by
  constructor
  · rintro rfl
    have h1 : bs * (y / bs) + y % bs = y := Nat.div_add_mod _ _
    have h2 : y % bs < bs := Nat.mod_lt _ hbs
    obtain ⟨t, ht⟩ : ∃ t, t = bs * (y / bs) := ⟨_, rfl⟩
    rw [← ht] at h1
    constructor
    · rw [mul_comm, ← ht]; omega
    · rw [mul_comm, ← ht]; omega
  · rintro ⟨h1, h2⟩
    have ha : row ≤ y / bs := (Nat.le_div_iff_mul_le hbs).mpr h1
    have hb : y / bs < row + 1 := by
      refine (Nat.div_lt_iff_lt_mul hbs).mpr ?_
      rw [add_mul, one_mul]
      exact h2
    omega

lemma truthy_getD_pos {o : Option Nat} (h : truthy o = true) : 0 < o.getD 0 := by
  cases o with
  | none => simp [truthy] at h
  | some n =>
    simp only [truthy, bne_iff_ne, ne_eq] at h
    simpa [Option.getD] using Nat.pos_of_ne_zero h

/-- Whenever there is at least one symbol, the resolver produces positive
width and height, whatever the optional constraints are. -/
lemma ceilSqrt_pos {total : Nat} (ht : 0 < total) : 0 < ceilSqrt total := by
  have hs := (ceilSqrt_spec total).1
  rcases Nat.eq_zero_or_pos (ceilSqrt total) with h0 | hpos
  · rw [h0] at hs; simp at hs; omega
  · exact hpos

lemma resolve_pos (total : Nat) (iw ih : Option Nat) (ht : 0 < total) :
    0 < (resolve total iw ih).1 ∧ 0 < (resolve total iw ih).2 := by
  unfold resolve
  by_cases h1 : truthy iw = true
  · by_cases h2 : truthy ih = true
    · rw [if_pos (by rw [h1, h2]; rfl)]
      exact ⟨truthy_getD_pos h1, truthy_getD_pos h2⟩
    · have hb2 : truthy ih = false := by simpa using h2
      rw [if_neg (by rw [h1, hb2]; simp), if_pos h1]
      exact ⟨truthy_getD_pos h1, ceilDiv_pos _ _ ht (truthy_getD_pos h1)⟩
  · have hb1 : truthy iw = false := by simpa using h1
    by_cases h2 : truthy ih = true
    · rw [if_neg (by rw [hb1]; simp), if_neg (by rw [hb1]; simp), if_pos h2]
      exact ⟨ceilDiv_pos _ _ ht (truthy_getD_pos h2), truthy_getD_pos h2⟩
    · have hb2 : truthy ih = false := by simpa using h2
      rw [if_neg (by rw [hb1]; simp), if_neg (by rw [hb1]; simp),
        if_neg (by rw [hb2]; simp)]
      exact ⟨ceilSqrt_pos ht, ceilSqrt_pos ht⟩

/-! ## Characterization of the simple painting loop -/

/-- The simple painting loop never touches a cell outside the
`height × width` area. -/
lemma paintLoop_outside (w h : Nat) (hw : 0 < w) (l : List Char) :
    ∀ (start : Nat) (buf : Buf) (r c : Nat), h ≤ r ∨ w ≤ c →
      paintLoop w h l start buf r c = buf r c := by
  induction l with
  | nil => intro start buf r c hrc; rfl
  | cons ch rest ih =>
    intro start buf r c hrc
    simp only [paintLoop]
    by_cases hbrk : h ≤ start / w
    · rw [if_pos hbrk]
    · rw [if_neg hbrk, ih (start + 1) _ r c hrc]
      have hrow : start / w < h := Nat.lt_of_not_le hbrk
      have hcol : start % w < w := Nat.mod_lt _ hw
      simp only [updateCell]
      rw [if_neg]
      rintro ⟨rfl, rfl⟩
      omega

/-- The value of the simple painting loop at an in-range cell `(r, c)`
with absolute index `n = r * w + c`: the cell holds the color of the
symbol with absolute index `n` if the loop reaches it, and is untouched
otherwise. -/
lemma paintLoop_at_index (w h : Nat) (hw : 0 < w) (l : List Char) :
    ∀ (start : Nat) (buf : Buf) (r c n : Nat), r < h → c < w → r * w + c = n →
      paintLoop w h l start buf r c =
        if start ≤ n ∧ n < start + l.length
        then colorOf (l.getD (n - start) 'A')
        else buf r c := by
  induction l with
  | nil =>
    intro start buf r c n hr hc hn
    simp only [paintLoop, List.length_nil]
    rw [if_neg (by omega)]
  | cons ch rest ih =>
    intro start buf r c n hr hc hn
    simp only [paintLoop, List.length_cons]
    have hlt : n < h * w := hn ▸ index_lt_of hr hc
    by_cases hbrk : h ≤ start / w
    · rw [if_pos hbrk]
      have hs : h * w ≤ start := (Nat.le_div_iff_mul_le hw).mp hbrk
      have hns : n < start := lt_of_lt_of_le hlt hs
      rw [if_neg (by omega)]
    · rw [if_neg hbrk, ih (start + 1) _ r c n hr hc hn]
      have hrow : start / w < h := Nat.lt_of_not_le hbrk
      by_cases hcase : n = start
      · subst hcase
        have hdiv : n / w = r := by
          have := (rowcol_of_index r hc).1
          rwa [hn] at this
        have hmod : n % w = c := by
          have := (rowcol_of_index r hc).2
          rwa [hn] at this
        rw [if_neg (by omega), if_pos (by omega)]
        simp only [Nat.sub_self, List.getD_cons_zero, updateCell]
        rw [if_pos ⟨hdiv.symm, hmod.symm⟩]
      · have hcell : ¬(r = start / w ∧ c = start % w) := by
          rintro ⟨h1, h2⟩
          apply hcase
          rw [← hn, h1, h2, mul_comm]
          exact Nat.div_add_mod start w
        by_cases hrange : start + 1 ≤ n ∧ n < start + 1 + rest.length
        · rw [if_pos hrange, if_pos (by omega)]
          have hidx : n - start = n - (start + 1) + 1 := by omega
          rw [hidx, List.getD_cons_succ]
        · rw [if_neg hrange, if_neg (by omega)]
          simp only [updateCell]
          rw [if_neg hcell]

/-- The pixel value of simple-mode paint at an in-range cell. -/
lemma paint_pix (seq : List Char) (w h : Nat) (hw : 0 < w)
    (r c : Nat) (hr : r < h) (hc : c < w) :
    (paint seq w h).pix r c =
      if r * w + c < seq.length then colorOf (seq.getD (r * w + c) 'A')
      else (0, 0, 0) := by
  have := paintLoop_at_index w h hw seq 0 zeroBuf r c (r * w + c) hr hc rfl
  simp only [Nat.zero_add, Nat.sub_zero, Nat.zero_le, true_and] at this
  exact this

/-- The pixel value of simple-mode paint outside the grid area. -/
lemma paint_pix_outside (seq : List Char) (w h : Nat) (hw : 0 < w)
    (r c : Nat) (hrc : h ≤ r ∨ w ≤ c) :
    (paint seq w h).pix r c = (0, 0, 0) :=
  paintLoop_outside w h hw seq 0 zeroBuf r c hrc

/-! ## Characterization of the block painting loop -/

/-- The block painting loop never touches a pixel outside the
`(height*bs) × (width*bs)` area. -/
lemma paintBlocksLoop_outside (w h bs : Nat) (hw : 0 < w) (l : List Char) :
    ∀ (start : Nat) (buf : Buf) (y x : Nat), h * bs ≤ y ∨ w * bs ≤ x →
      paintBlocksLoop w h bs l start buf y x = buf y x := by
  induction l with
  | nil => intro start buf y x hyx; rfl
  | cons ch rest ih =>
    intro start buf y x hyx
    simp only [paintBlocksLoop]
    by_cases hbrk : h ≤ start / w
    · rw [if_pos hbrk]
    · rw [if_neg hbrk, ih (start + 1) _ y x hyx]
      have hrow : start / w < h := Nat.lt_of_not_le hbrk
      have hcol : start % w < w := Nat.mod_lt _ hw
      simp only [updateBlock]
      rw [if_neg]
      rintro ⟨a1, a2, a3, a4⟩
      have hy : y < h * bs := by
        calc y < start / w * bs + bs := a2
          _ = (start / w + 1) * bs := by ring
          _ ≤ h * bs := Nat.mul_le_mul_right bs hrow
      have hx : x < w * bs := by
        calc x < start % w * bs + bs := a4
          _ = (start % w + 1) * bs := by ring
          _ ≤ w * bs := Nat.mul_le_mul_right bs hcol
      rcases hyx with hcase | hcase
      · exact absurd hy (not_lt.mpr hcase)
      · exact absurd hx (not_lt.mpr hcase)

/-- The value of the block painting loop at an in-range pixel `(y, x)`
whose block has absolute index `n = (y/bs)*w + x/bs`. -/
lemma paintBlocksLoop_at (w h bs : Nat) (hw : 0 < w) (hbs : 0 < bs)
    (l : List Char) :
    ∀ (start : Nat) (buf : Buf) (y x n : Nat),
      y / bs < h → x / bs < w → y / bs * w + x / bs = n →
      paintBlocksLoop w h bs l start buf y x =
        if start ≤ n ∧ n < start + l.length
        then colorOf (l.getD (n - start) 'A')
        else buf y x := by
  induction l with
  | nil =>
    intro start buf y x n hr hc hn
    simp only [paintBlocksLoop, List.length_nil]
    rw [if_neg (by omega)]
  | cons ch rest ih =>
    intro start buf y x n hr hc hn
    simp only [paintBlocksLoop, List.length_cons]
    have hlt : n < h * w := hn ▸ index_lt_of hr hc
    by_cases hbrk : h ≤ start / w
    · rw [if_pos hbrk]
      have hs : h * w ≤ start := (Nat.le_div_iff_mul_le hw).mp hbrk
      have hns : n < start := lt_of_lt_of_le hlt hs
      rw [if_neg (by omega)]
    · rw [if_neg hbrk, ih (start + 1) _ y x n hr hc hn]
      have hrow : start / w < h := Nat.lt_of_not_le hbrk
      by_cases hcase : n = start
      · subst hcase
        have hdiv : n / w = y / bs := by
          have := (rowcol_of_index (y / bs) hc).1
          rwa [hn] at this
        have hmod : n % w = x / bs := by
          have := (rowcol_of_index (y / bs) hc).2
          rwa [hn] at this
        rw [if_neg (by omega), if_pos (by omega)]
        simp only [Nat.sub_self, List.getD_cons_zero, updateBlock]
        have hy := (div_block_iff hbs).mp hdiv.symm
        have hx := (div_block_iff hbs).mp hmod.symm
        rw [if_pos ⟨hy.1, hy.2, hx.1, hx.2⟩]
      · have hcell : ¬(start / w * bs ≤ y ∧ y < start / w * bs + bs ∧
            start % w * bs ≤ x ∧ x < start % w * bs + bs) := by
          rintro ⟨a1, a2, a3, a4⟩
          apply hcase
          have hy : y / bs = start / w := (div_block_iff hbs).mpr ⟨a1, a2⟩
          have hx : x / bs = start % w := (div_block_iff hbs).mpr ⟨a3, a4⟩
          rw [← hn, hy, hx, mul_comm]
          exact Nat.div_add_mod start w
        by_cases hrange : start + 1 ≤ n ∧ n < start + 1 + rest.length
        · rw [if_pos hrange, if_pos (by omega)]
          have hidx : n - start = n - (start + 1) + 1 := by omega
          rw [hidx, List.getD_cons_succ]
        · rw [if_neg hrange, if_neg (by omega)]
          simp only [updateBlock]
          rw [if_neg hcell]

/-- The pixel value of block-mode paint at an in-range pixel. -/
lemma paintBlocks_pix (seq : List Char) (w h bs : Nat)
    (hw : 0 < w) (hbs : 0 < bs) (y x : Nat)
    (hy : y < h * bs) (hx : x < w * bs) :
    (paintBlocks seq w h bs).pix y x =
      if y / bs * w + x / bs < seq.length
      then colorOf (seq.getD (y / bs * w + x / bs) 'A')
      else (0, 0, 0) := by
  have hr : y / bs < h := (Nat.div_lt_iff_lt_mul hbs).mpr hy
  have hc : x / bs < w := (Nat.div_lt_iff_lt_mul hbs).mpr hx
  have := paintBlocksLoop_at w h bs hw hbs seq 0 zeroBuf y x _ hr hc rfl
  simp only [Nat.zero_add, Nat.sub_zero, Nat.zero_le, true_and] at this
  exact this

/-! ## Characterization of the glyph-planning loop -/

/-- Length and contents of the glyph plan: one instruction per symbol
until the row guard stops the loop, with the source's anchor formula. -/
lemma planLoop_spec (w h bs : Nat) (hw : 0 < w) (l : List Char) :
    ∀ start : Nat,
      (planLoop w h bs l start).length = min l.length (h * w - start) ∧
      ∀ j, (hj : j < (planLoop w h bs l start).length) →
        (planLoop w h bs l start).get ⟨j, hj⟩ =
          ⟨((start + j) % w * bs + bs / 4, (start + j) / w * bs + bs / 4),
            l.getD j 'A',
            get_contrasting_text_color (colorOf (l.getD j 'A'))⟩ := by
  induction l with
  | nil =>
    intro start
    constructor
    · simp [planLoop]
    · intro j hj
      simp [planLoop] at hj
  | cons ch rest ih =>
    intro start
    by_cases hbrk : h ≤ start / w
    · have hs : h * w ≤ start := (Nat.le_div_iff_mul_le hw).mp hbrk
      simp only [planLoop, if_pos hbrk]
      constructor
      · simp only [List.length_nil, List.length_cons]
        obtain ⟨t, ht⟩ : ∃ t, t = h * w := ⟨_, rfl⟩
        rw [← ht] at hs ⊢
        omega
      · intro j hj
        simp at hj
    · have hsl : start < h * w :=
        (Nat.div_lt_iff_lt_mul hw).mp (Nat.lt_of_not_le hbrk)
      have heq : planLoop w h bs (ch :: rest) start =
          ⟨(start % w * bs + bs / 4, start / w * bs + bs / 4), ch,
            get_contrasting_text_color (colorOf ch)⟩ ::
            planLoop w h bs rest (start + 1) := by
        simp only [planLoop, if_neg hbrk]
      rw [heq]
      obtain ⟨ihlen, ihget⟩ := ih (start + 1)
      constructor
      · simp only [List.length_cons, ihlen]
        obtain ⟨t, ht⟩ : ∃ t, t = h * w := ⟨_, rfl⟩
        rw [← ht] at hsl ⊢
        omega
      · intro j hj
        match j with
        | 0 => simp
        | k + 1 =>
          have hj' : k < (planLoop w h bs rest (start + 1)).length := by
            simpa using hj
          have hstep :
              (⟨(start % w * bs + bs / 4, start / w * bs + bs / 4), ch,
                  get_contrasting_text_color (colorOf ch)⟩ ::
                planLoop w h bs rest (start + 1)).get ⟨k + 1, hj⟩ =
              (planLoop w h bs rest (start + 1)).get ⟨k, hj'⟩ := rfl
          rw [hstep, ihget k hj']
          have harg : start + 1 + k = start + (k + 1) := by omega
          rw [harg, List.getD_cons_succ]

/-! ## Normalizer helper lemmas -/

lemma keepChar_iff (c : Char) : keepChar c = true ↔ c ∈ dnaAlphabet := by
  simp only [keepChar, color_map, dnaAlphabet]
  split_ifs with h1 h2 h3 h4 <;> simp_all

lemma py_isspace_not_kept {c : Char} (h : py_isspace c = true) :
    keepChar (Char.toUpper c) = false := by
  simp only [py_isspace, Bool.or_eq_true, decide_eq_true_eq] at h
  rcases h with ((((h | h) | h) | h) | h) | h <;> subst h <;> decide

lemma filter_dropWhile_eq (q p : Char → Bool)
    (hpq : ∀ a, p a = true → q a = false) (l : List Char) :
    (l.dropWhile p).filter q = l.filter q := by
  induction l with
  | nil => rfl
  | cons a l ih =>
    by_cases hpa : p a = true
    · rw [List.dropWhile_cons_of_pos hpa, ih, List.filter_cons_of_neg]
      simp [hpq a hpa]
    · rw [List.dropWhile_cons_of_neg hpa]

lemma filter_reverse_comm (q : Char → Bool) (l : List Char) :
    l.reverse.filter q = (l.filter q).reverse := by
  induction l with
  | nil => rfl
  | cons a l ih =>
    rw [List.reverse_cons, List.filter_append, ih, List.filter_cons]
    by_cases hqa : q a = true
    · simp [hqa]
    · simp [hqa]

/-- Stripping whitespace first does not change the filtered result, since
whitespace characters never uppercase into the alphabet. -/
lemma filter_map_py_strip (l : List Char) :
    ((py_strip l).map Char.toUpper).filter keepChar =
      (l.map Char.toUpper).filter keepChar := by
  have hq : ∀ a, py_isspace a = true →
      (keepChar ∘ Char.toUpper) a = false := fun a ha =>
    py_isspace_not_kept ha
  rw [List.filter_map, List.filter_map]
  congr 1
  unfold py_strip
  rw [filter_reverse_comm (keepChar ∘ Char.toUpper),
    filter_dropWhile_eq (keepChar ∘ Char.toUpper) py_isspace hq,
    filter_reverse_comm (keepChar ∘ Char.toUpper),
    List.reverse_reverse,
    filter_dropWhile_eq (keepChar ∘ Char.toUpper) py_isspace hq]

/-! ## Claim theorems -/

/-- C1: simple-mode paint returns a `height × width` (RGB) buffer in which
each index `i` with `row = i / width < height` paints cell
`(i / width, i % width)` with the fixed color of `sequence[i]`
('A' red, 'T' green, 'C' blue, 'G' yellow); indices whose row reaches
`height` are dropped, and every unpainted cell stays black `(0,0,0)`. -/
theorem C1_simple_paint_postcondition (seq : List Char) (w h : Nat)
    (hw : 0 < w) (hh : 0 < h) (hseq : ∀ ch ∈ seq, ch ∈ dnaAlphabet) :
    (paint seq w h).rows = h ∧ (paint seq w h).cols = w ∧
    colorOf 'A' = (255, 0, 0) ∧ colorOf 'T' = (0, 255, 0) ∧
    colorOf 'C' = (0, 0, 255) ∧ colorOf 'G' = (255, 255, 0) ∧
    (∀ i, (hi : i < seq.length) → i / w < h →
      (paint seq w h).pix (i / w) (i % w) = colorOf (seq.get ⟨i, hi⟩)) ∧
    (∀ r c, r < h → c < w → seq.length ≤ r * w + c →
      (paint seq w h).pix r c = (0, 0, 0)) ∧
    (∀ r c, h ≤ r ∨ w ≤ c → (paint seq w h).pix r c = (0, 0, 0)) := by
  refine ⟨rfl, rfl, rfl, rfl, rfl, rfl, ?_, ?_, ?_⟩
  · intro i hi hrow
    have hc : i % w < w := Nat.mod_lt _ hw
    have hidx : i / w * w + i % w = i := by
      rw [mul_comm]; exact Nat.div_add_mod i w
    rw [paint_pix seq w h hw _ _ hrow hc, hidx, if_pos hi,
      List.getD_eq_getElem seq 'A' hi, List.get_eq_getElem]
  · intro r c hr hc hlen
    rw [paint_pix seq w h hw r c hr hc, if_neg (Nat.not_lt.mpr hlen)]
  · intro r c hrc
    exact paint_pix_outside seq w h hw r c hrc

/-- Witness for C1: a length-10 sequence painted into a 3×2 grid; the
hypotheses hold and the postcondition follows, so exactly the six cells of
indices 0-5 are painted and indices 6-9 are dropped. -/
theorem C1_simple_paint_postcondition_witness :
    0 < 3 ∧ 0 < 2 ∧ (∀ ch ∈ ("ATCGATCGAT".toList), ch ∈ dnaAlphabet) ∧
    ((paint ("ATCGATCGAT".toList) 3 2).rows = 2 ∧
     (paint ("ATCGATCGAT".toList) 3 2).cols = 3 ∧
     colorOf 'A' = (255, 0, 0) ∧ colorOf 'T' = (0, 255, 0) ∧
     colorOf 'C' = (0, 0, 255) ∧ colorOf 'G' = (255, 255, 0) ∧
     (∀ i, (hi : i < ("ATCGATCGAT".toList).length) → i / 3 < 2 →
       (paint ("ATCGATCGAT".toList) 3 2).pix (i / 3) (i % 3) =
         colorOf (("ATCGATCGAT".toList).get ⟨i, hi⟩)) ∧
     (∀ r c, r < 2 → c < 3 → ("ATCGATCGAT".toList).length ≤ r * 3 + c →
       (paint ("ATCGATCGAT".toList) 3 2).pix r c = (0, 0, 0)) ∧
     (∀ r c, 2 ≤ r ∨ 3 ≤ c →
       (paint ("ATCGATCGAT".toList) 3 2).pix r c = (0, 0, 0))) :=
  ⟨by decide, by decide, by decide,
    C1_simple_paint_postcondition ("ATCGATCGAT".toList) 3 2
      (by decide) (by decide) (by decide)⟩

/-- C2: the dimension resolver implements the stated policy — width only
given: `height = ceil(total/width)`; height only: symmetric; both given:
verbatim; neither: `width = height = ceil(sqrt(total))` — where the
ceilings are characterized as least values with enough capacity; and the
four concrete examples of the spec hold. -/
theorem C2_dimension_resolver (total w h : Nat) (hw : 0 < w) (hh : 0 < h) :
    (resolve total (some w) none = (w, ceilDiv total w) ∧
      total ≤ ceilDiv total w * w ∧
      (∀ k, total ≤ k * w → ceilDiv total w ≤ k)) ∧
    (resolve total none (some h) = (ceilDiv total h, h) ∧
      total ≤ ceilDiv total h * h ∧
      (∀ k, total ≤ k * h → ceilDiv total h ≤ k)) ∧
    resolve total (some w) (some h) = (w, h) ∧
    (resolve total none none = (ceilSqrt total, ceilSqrt total) ∧
      total ≤ ceilSqrt total * ceilSqrt total ∧
      (∀ k, total ≤ k * k → ceilSqrt total ≤ k)) ∧
    resolve 0 none none = (0, 0) ∧
    resolve 10 (some 5) none = (5, 2) ∧
    resolve 10 none none = (4, 4) ∧
    resolve 9 none none = (3, 3) := by
  have hwne : w ≠ 0 := hw.ne'
  have hhne : h ≠ 0 := hh.ne'
  refine ⟨⟨?_, le_ceilDiv_mul total w hw, fun k hk => ceilDiv_le total w k hw hk⟩,
    ⟨?_, le_ceilDiv_mul total h hh, fun k hk => ceilDiv_le total h k hh hk⟩,
    ?_, ⟨?_, (ceilSqrt_spec total).1, (ceilSqrt_spec total).2⟩,
    by decide, by decide, by decide, by decide⟩
  · simp [resolve, truthy, hwne]
  · simp [resolve, truthy, hhne]
  · simp [resolve, truthy, hwne, hhne]
  · simp [resolve, truthy]

/-- Witness for C2 at `total = 10`, `width = 5`, `height = 2`. -/
theorem C2_dimension_resolver_witness :
    0 < 5 ∧ 0 < 2 ∧
    ((resolve 10 (some 5) none = (5, ceilDiv 10 5) ∧
      10 ≤ ceilDiv 10 5 * 5 ∧ (∀ k, 10 ≤ k * 5 → ceilDiv 10 5 ≤ k)) ∧
    (resolve 10 none (some 2) = (ceilDiv 10 2, 2) ∧
      10 ≤ ceilDiv 10 2 * 2 ∧ (∀ k, 10 ≤ k * 2 → ceilDiv 10 2 ≤ k)) ∧
    resolve 10 (some 5) (some 2) = (5, 2) ∧
    (resolve 10 none none = (ceilSqrt 10, ceilSqrt 10) ∧
      10 ≤ ceilSqrt 10 * ceilSqrt 10 ∧
      (∀ k, 10 ≤ k * k → ceilSqrt 10 ≤ k)) ∧
    resolve 0 none none = (0, 0) ∧
    resolve 10 (some 5) none = (5, 2) ∧
    resolve 10 none none = (4, 4) ∧
    resolve 9 none none = (3, 3)) :=
  ⟨by decide, by decide, C2_dimension_resolver 10 5 2 (by decide) (by decide)⟩

/-- C3: for every input text, the normalized output is exactly the
subsequence of the uppercased input consisting of the characters in
{A, T, C, G}, in original relative order (a filter, never an error);
in particular every output character is in the alphabet and the output is
a sublist of the uppercased input. -/
theorem C3_normalizer (text : List Char) :
    normalizeSeq text = (text.map Char.toUpper).filter keepChar ∧
    (∀ c, c ∈ normalizeSeq text ↔
      c ∈ (text.map Char.toUpper).filter (fun c => decide (c ∈ dnaAlphabet))) ∧
    (∀ c ∈ normalizeSeq text, c ∈ dnaAlphabet) ∧
    List.Sublist (normalizeSeq text) (text.map Char.toUpper) := by
  have hfun : (fun c => decide (c ∈ dnaAlphabet)) = keepChar := by
    funext c
    rcases hb : keepChar c with _ | _
    · simp only [decide_eq_false_iff_not]
      intro hmem
      exact absurd ((keepChar_iff c).mpr hmem) (by simp [hb])
    · simp only [decide_eq_true_eq]
      exact (keepChar_iff c).mp hb
  have hmain : normalizeSeq text = (text.map Char.toUpper).filter keepChar :=
    filter_map_py_strip text
  refine ⟨hmain, ?_, ?_, ?_⟩
  · intro c
    rw [hfun, hmain]
  · intro c hc
    rw [hmain] at hc
    exact (keepChar_iff c).mp (List.of_mem_filter hc)
  · rw [hmain]
    exact List.filter_sublist _

/-- C5: when the normalized sequence is empty, simple mode paints no cell
(the whole buffer stays black, no computation error from the degenerate
grid) and block mode returns early with an empty result rather than an
error, whatever the block size and dimension constraints. -/
theorem C5_empty_input_short_circuit (text : List Char)
    (iw ih : Option Nat) (bs : Int)
    (hempty : normalizeSeq text = []) :
    (∀ r c, (dna_to_image text iw ih).pix r c = (0, 0, 0)) ∧
    dna_to_image_with_text text bs iw ih = Except.ok none := by
  constructor
  · intro r c
    show (paint (normalizeSeq text)
      (resolve (normalizeSeq text).length iw ih).1
      (resolve (normalizeSeq text).length iw ih).2).pix r c = (0, 0, 0)
    rw [hempty]
    rfl
  · show (if (normalizeSeq text).length = 0 then
        Except.ok none else _) = Except.ok none
    rw [hempty]
    rfl

/-- Witness for C5: a text with no valid nucleotide, a negative block
size, and no dimension constraints. -/
theorem C5_empty_input_short_circuit_witness :
    normalizeSeq ("xyz 123!".toList) = [] ∧
    ((∀ r c, (dna_to_image ("xyz 123!".toList) none none).pix r c =
        (0, 0, 0)) ∧
     dna_to_image_with_text ("xyz 123!".toList) (-7) none none =
        Except.ok none) :=
  ⟨by decide,
    C5_empty_input_short_circuit ("xyz 123!".toList) none none (-7)
      (by decide)⟩

/-- C4 counterexample: with `blockSize = 0` and a nonempty input, the
block pipeline does not fail — no error is raised and a (0×0) buffer is
produced — refuting the claim that every `blockSize ≤ 0` is fatal. -/
theorem C4_counterexample_blockSize_zero :
    isError (dna_to_image_with_text ("A".toList) 0 none none) = false ∧
    producesBuffer (dna_to_image_with_text ("A".toList) 0 none none) =
      true := by
  constructor <;> rfl

/-- C4 amended: a negative `blockSize` with a nonempty normalized
sequence is fatal — buffer allocation rejects the negative dimensions,
the error is reported to the caller, and no buffer is produced;
`blockSize = 0` is not an error (it silently yields an empty buffer). -/
theorem C4_negative_blockSize_fatal (text : List Char) (bs : Int)
    (iw ih : Option Nat) (hne : normalizeSeq text ≠ []) (hbs : bs < 0) :
    dna_to_image_with_text text bs iw ih =
      Except.error "negative dimensions are not allowed" ∧
    isError (dna_to_image_with_text text bs iw ih) = true ∧
    producesBuffer (dna_to_image_with_text text bs iw ih) = false := by
  have hlen : (normalizeSeq text).length ≠ 0 :=
    fun hlz => hne (List.length_eq_zero.mp hlz)
  have hpos :=
    resolve_pos (normalizeSeq text).length iw ih (Nat.pos_of_ne_zero hlen)
  have hneg :
      ((resolve (normalizeSeq text).length iw ih).2 : Int) * bs < 0 :=
    mul_neg_of_pos_of_neg (by exact_mod_cast hpos.2) hbs
  have hmain : dna_to_image_with_text text bs iw ih =
      Except.error "negative dimensions are not allowed" := by
    simp only [dna_to_image_with_text]
    rw [if_neg hlen]
    simp only [np_zeros2]
    rw [if_pos (Or.inl hneg)]
  exact ⟨hmain, by rw [hmain]; rfl, by rw [hmain]; rfl⟩

/-- Witness for the amended C4: input "A" with `blockSize = -1`. -/
theorem C4_negative_blockSize_fatal_witness :
    normalizeSeq ("A".toList) ≠ [] ∧ (-1 : Int) < 0 ∧
    (dna_to_image_with_text ("A".toList) (-1) none none =
       Except.error "negative dimensions are not allowed" ∧
     isError (dna_to_image_with_text ("A".toList) (-1) none none) = true ∧
     producesBuffer (dna_to_image_with_text ("A".toList) (-1) none none) =
       false) :=
  ⟨by decide, by decide,
    C4_negative_blockSize_fatal ("A".toList) (-1) none none
      (by decide) (by decide)⟩

/-- C6: block-mode paint returns a buffer of shape
`(height*blockSize) × (width*blockSize)` (RGB); each non-truncated index
fills its whole `blockSize × blockSize` square with the symbol's color;
pixels of blocks beyond the sequence (or beyond the row guard) stay
black, exactly as in simple mode. -/
theorem C6_block_paint (seq : List Char) (w h bs : Nat)
    (hw : 0 < w) (hh : 0 < h) (hbs : 0 < bs)
    (hseq : ∀ ch ∈ seq, ch ∈ dnaAlphabet) :
    (paintBlocks seq w h bs).rows = h * bs ∧
    (paintBlocks seq w h bs).cols = w * bs ∧
    (∀ i, (hi : i < seq.length) → i / w < h → ∀ dy dx, dy < bs → dx < bs →
      (paintBlocks seq w h bs).pix (i / w * bs + dy) (i % w * bs + dx) =
        colorOf (seq.get ⟨i, hi⟩)) ∧
    (∀ y x, y < h * bs → x < w * bs → seq.length ≤ y / bs * w + x / bs →
      (paintBlocks seq w h bs).pix y x = (0, 0, 0)) ∧
    (∀ y x, h * bs ≤ y ∨ w * bs ≤ x →
      (paintBlocks seq w h bs).pix y x = (0, 0, 0)) := by
  refine ⟨rfl, rfl, ?_, ?_, ?_⟩
  · intro i hi hrow dy dx hdy hdx
    have hcol : i % w < w := Nat.mod_lt _ hw
    have hydiv : (i / w * bs + dy) / bs = i / w :=
      (div_block_iff hbs).mpr ⟨Nat.le_add_right _ _, Nat.add_lt_add_left hdy _⟩
    have hxdiv : (i % w * bs + dx) / bs = i % w :=
      (div_block_iff hbs).mpr ⟨Nat.le_add_right _ _, Nat.add_lt_add_left hdx _⟩
    have hy : i / w * bs + dy < h * bs := by
      calc i / w * bs + dy < i / w * bs + bs := Nat.add_lt_add_left hdy _
        _ = (i / w + 1) * bs := by ring
        _ ≤ h * bs := Nat.mul_le_mul_right bs hrow
    have hx : i % w * bs + dx < w * bs := by
      calc i % w * bs + dx < i % w * bs + bs := Nat.add_lt_add_left hdx _
        _ = (i % w + 1) * bs := by ring
        _ ≤ w * bs := Nat.mul_le_mul_right bs hcol
    rw [paintBlocks_pix seq w h bs hw hbs _ _ hy hx, hydiv, hxdiv]
    have hidx : i / w * w + i % w = i := by
      rw [mul_comm]; exact Nat.div_add_mod i w
    rw [hidx, if_pos hi, List.getD_eq_getElem seq 'A' hi, List.get_eq_getElem]
  · intro y x hy hx hlen
    rw [paintBlocks_pix seq w h bs hw hbs y x hy hx,
      if_neg (Nat.not_lt.mpr hlen)]
  · intro y x hyx
    exact paintBlocksLoop_outside w h bs hw seq 0 zeroBuf y x hyx

/-- Witness for C6: "AT" painted into a 2×1 grid of 2×2 blocks. -/
theorem C6_block_paint_witness :
    0 < 2 ∧ 0 < 1 ∧ 0 < 2 ∧ (∀ ch ∈ ("AT".toList), ch ∈ dnaAlphabet) ∧
    ((paintBlocks ("AT".toList) 2 1 2).rows = 1 * 2 ∧
     (paintBlocks ("AT".toList) 2 1 2).cols = 2 * 2 ∧
     (∀ i, (hi : i < ("AT".toList).length) → i / 2 < 1 →
       ∀ dy dx, dy < 2 → dx < 2 →
       (paintBlocks ("AT".toList) 2 1 2).pix (i / 2 * 2 + dy)
           (i % 2 * 2 + dx) =
         colorOf (("AT".toList).get ⟨i, hi⟩)) ∧
     (∀ y x, y < 1 * 2 → x < 2 * 2 →
       ("AT".toList).length ≤ y / 2 * 2 + x / 2 →
       (paintBlocks ("AT".toList) 2 1 2).pix y x = (0, 0, 0)) ∧
     (∀ y x, 1 * 2 ≤ y ∨ 2 * 2 ≤ x →
       (paintBlocks ("AT".toList) 2 1 2).pix y x = (0, 0, 0))) :=
  ⟨by decide, by decide, by decide, by decide,
    C6_block_paint ("AT".toList) 2 1 2
      (by decide) (by decide) (by decide) (by decide)⟩

/-- C7 counterexample: in the end-to-end scenario the input
`"acgtXX\nACGT"` normalizes to `"ACGTACGT"`, so cell (0,1) holds 'C'
(blue), not 'T' (green) as the claim states. -/
theorem C7_counterexample_cell_colors :
    normalizeSeq ("acgtXX\nACGT".toList) = ("ACGTACGT".toList) ∧
    (dna_to_image ("acgtXX\nACGT".toList) none none).pix 0 1 =
      (0, 0, 255) ∧
    (dna_to_image ("acgtXX\nACGT".toList) none none).pix 0 1 ≠
      (0, 255, 0) := by
  refine ⟨by decide, by decide, by decide⟩

/-- C7 amended: the scenario with the cell colors following the actual
normalized order "ACGTACGT": (0,0) red 'A', (0,1) blue 'C', (0,2) yellow
'G', (1,0) green 'T', (1,1) red 'A', (1,2) blue 'C', (2,0) yellow 'G',
(2,1) green 'T', (2,2) black (unpainted); length 8 and dims (3,3) as
claimed. -/
theorem C7_scenario_end_to_end :
    normalizeSeq ("acgtXX\nACGT".toList) = ("ACGTACGT".toList) ∧
    ("ACGTACGT".toList).length = 8 ∧
    resolve 8 none none = (3, 3) ∧
    (dna_to_image ("acgtXX\nACGT".toList) none none).pix 0 0 =
      (255, 0, 0) ∧
    (dna_to_image ("acgtXX\nACGT".toList) none none).pix 0 1 =
      (0, 0, 255) ∧
    (dna_to_image ("acgtXX\nACGT".toList) none none).pix 0 2 =
      (255, 255, 0) ∧
    (dna_to_image ("acgtXX\nACGT".toList) none none).pix 1 0 =
      (0, 255, 0) ∧
    (dna_to_image ("acgtXX\nACGT".toList) none none).pix 1 1 =
      (255, 0, 0) ∧
    (dna_to_image ("acgtXX\nACGT".toList) none none).pix 1 2 =
      (0, 0, 255) ∧
    (dna_to_image ("acgtXX\nACGT".toList) none none).pix 2 0 =
      (255, 255, 0) ∧
    (dna_to_image ("acgtXX\nACGT".toList) none none).pix 2 1 =
      (0, 255, 0) ∧
    (dna_to_image ("acgtXX\nACGT".toList) none none).pix 2 2 =
      (0, 0, 0) := by
  decide

/-- C8: the text color chooser returns pure black exactly when the
perceptual luminance `0.299*R + 0.587*G + 0.114*B` exceeds 128 and pure
white otherwise (so the result is always black or white); yellow
backgrounds get black text, blue backgrounds get white text. -/
theorem C8_contrasting_text_color :
    (∀ R G B : Nat,
      (get_contrasting_text_color (R, G, B) = (0, 0, 0) ↔
        (128 : ℚ) < 0.299 * R + 0.587 * G + 0.114 * B) ∧
      (get_contrasting_text_color (R, G, B) = (0, 0, 0) ∨
        get_contrasting_text_color (R, G, B) = (255, 255, 255))) ∧
    get_contrasting_text_color (255, 255, 0) = (0, 0, 0) ∧
    get_contrasting_text_color (0, 0, 255) = (255, 255, 255) := by
  have key : ∀ R G B : Nat,
      ((299 * R + 587 * G + 114 * B : ℚ)) / 1000 =
        0.299 * R + 0.587 * G + 0.114 * B := by
    intro R G B
    rw [div_eq_iff (by norm_num : (1000 : ℚ) ≠ 0)]
    norm_num
    ring
  refine ⟨?_, ?_, ?_⟩
  · intro R G B
    have hrepr : get_contrasting_text_color (R, G, B) =
        if (128 : ℚ) < (299 * R + 587 * G + 114 * B : ℚ) / 1000
        then (0, 0, 0) else (255, 255, 255) := rfl
    by_cases hlt : (128 : ℚ) < (299 * R + 587 * G + 114 * B : ℚ) / 1000
    · rw [hrepr, if_pos hlt]
      refine ⟨⟨fun _ => ?_, fun _ => rfl⟩, Or.inl rfl⟩
      rwa [key R G B] at hlt
    · rw [hrepr, if_neg hlt]
      refine ⟨⟨fun hc => absurd hc (by decide), fun hq => absurd ?_ hlt⟩,
        Or.inr rfl⟩
      rw [key R G B]
      exact hq
  · norm_num [get_contrasting_text_color]
  · norm_num [get_contrasting_text_color]

/-- C9: one draw instruction is planned per non-truncated symbol, in the
row-major order of painting (none for dropped symbols), and the j-th
instruction carries the j-th symbol with anchor
`(col*blockSize + blockSize/4, row*blockSize + blockSize/4)` using
integer division. -/
theorem C9_glyph_planning (seq : List Char) (w h bs : Nat) (hw : 0 < w) :
    (planGlyphs seq w h bs).length = min seq.length (h * w) ∧
    ∀ j, (hj : j < (planGlyphs seq w h bs).length) →
      ((planGlyphs seq w h bs).get ⟨j, hj⟩).pos =
        (j % w * bs + bs / 4, j / w * bs + bs / 4) ∧
      ((planGlyphs seq w h bs).get ⟨j, hj⟩).ch = seq.getD j 'A' := by
  obtain ⟨hlen, hget⟩ := planLoop_spec w h bs hw seq 0
  constructor
  · simpa using hlen
  · intro j hj
    have hj0 : j < (planLoop w h bs seq 0).length := hj
    have := hget j hj0
    constructor
    · show ((planLoop w h bs seq 0).get ⟨j, hj0⟩).pos = _
      rw [this]
      simp
    · show ((planLoop w h bs seq 0).get ⟨j, hj0⟩).ch = _
      rw [this]

/-- Witness for C9: "ATC" into a 2×1 grid with block size 4; two of the
three symbols fit and get instructions. -/
theorem C9_glyph_planning_witness :
    0 < 2 ∧
    ((planGlyphs ("ATC".toList) 2 1 4).length =
        min ("ATC".toList).length (1 * 2) ∧
     ∀ j, (hj : j < (planGlyphs ("ATC".toList) 2 1 4).length) →
       ((planGlyphs ("ATC".toList) 2 1 4).get ⟨j, hj⟩).pos =
         (j % 2 * 4 + 4 / 4, j / 2 * 4 + 4 / 4) ∧
       ((planGlyphs ("ATC".toList) 2 1 4).get ⟨j, hj⟩).ch =
         ("ATC".toList).getD j 'A') :=
  ⟨by decide, C9_glyph_planning ("ATC".toList) 2 1 4 (by decide)⟩

/-! ## Write-instrumentation bounds -/

lemma paintWrites_bound (w h : Nat) (hw : 0 < w) (l : List Char) :
    ∀ start, ∀ rc ∈ paintWrites w h l start, rc.1 < h ∧ rc.2 < w := by
  induction l with
  | nil =>
    intro start rc hrc
    simp [paintWrites] at hrc
  | cons ch rest ih =>
    intro start rc hrc
    simp only [paintWrites] at hrc
    by_cases hbrk : h ≤ start / w
    · rw [if_pos hbrk] at hrc
      simp at hrc
    · rw [if_neg hbrk] at hrc
      rcases List.mem_cons.mp hrc with hrc | hrc
      · subst hrc
        exact ⟨Nat.lt_of_not_le hbrk, Nat.mod_lt _ hw⟩
      · exact ih (start + 1) rc hrc

lemma blockWrites_bound (w h bs : Nat) (hw : 0 < w) (l : List Char) :
    ∀ start, ∀ reg ∈ blockWrites w h bs l start,
      reg.2.1 ≤ h * bs ∧ reg.2.2.2 ≤ w * bs := by
  induction l with
  | nil =>
    intro start reg hreg
    simp [blockWrites] at hreg
  | cons ch rest ih =>
    intro start reg hreg
    simp only [blockWrites] at hreg
    by_cases hbrk : h ≤ start / w
    · rw [if_pos hbrk] at hreg
      simp at hreg
    · rw [if_neg hbrk] at hreg
      rcases List.mem_cons.mp hreg with hreg | hreg
      · subst hreg
        refine ⟨?_, ?_⟩
        · calc start / w * bs + bs = (start / w + 1) * bs := by ring
            _ ≤ h * bs := Nat.mul_le_mul_right bs (Nat.lt_of_not_le hbrk)
        · calc start % w * bs + bs = (start % w + 1) * bs := by ring
            _ ≤ w * bs := Nat.mul_le_mul_right bs (Nat.mod_lt _ hw)
      · exact ih (start + 1) reg hreg

/-- C10: memory safety of the painters on resolver-produced dimensions —
a nonempty normalized sequence forces positive width and height (so the
divisions `idx // width` and `idx % width` are well defined and
`col < width`), every simple-mode write lands strictly inside the
`height × width` grid, every block-mode write rectangle lies inside the
allocated `(height*bs) × (width*bs)` buffer, and an empty sequence
performs no writes at all (so the degenerate `width = 0` grid never
reaches a division). -/
theorem C10_painter_memory_safety (text : List Char) (iw ih : Option Nat) :
    (normalizeSeq text ≠ [] →
      0 < (resolve (normalizeSeq text).length iw ih).1 ∧
      0 < (resolve (normalizeSeq text).length iw ih).2) ∧
    (∀ rc ∈ paintWrites (resolve (normalizeSeq text).length iw ih).1
        (resolve (normalizeSeq text).length iw ih).2 (normalizeSeq text) 0,
      rc.1 < (resolve (normalizeSeq text).length iw ih).2 ∧
      rc.2 < (resolve (normalizeSeq text).length iw ih).1) ∧
    (∀ bs : Nat,
      ∀ reg ∈ blockWrites (resolve (normalizeSeq text).length iw ih).1
        (resolve (normalizeSeq text).length iw ih).2 bs
        (normalizeSeq text) 0,
      reg.2.1 ≤ (resolve (normalizeSeq text).length iw ih).2 * bs ∧
      reg.2.2.2 ≤ (resolve (normalizeSeq text).length iw ih).1 * bs) ∧
    (normalizeSeq text = [] →
      paintWrites (resolve (normalizeSeq text).length iw ih).1
        (resolve (normalizeSeq text).length iw ih).2
        (normalizeSeq text) 0 = [] ∧
      ∀ bs : Nat,
        blockWrites (resolve (normalizeSeq text).length iw ih).1
          (resolve (normalizeSeq text).length iw ih).2 bs
          (normalizeSeq text) 0 = []) := by
  refine ⟨?_, ?_, ?_, ?_⟩
  · intro hne
    exact resolve_pos _ iw ih (List.length_pos.mpr hne)
  · by_cases hseq : normalizeSeq text = []
    · intro rc hrc
      rw [hseq] at hrc
      simp [paintWrites] at hrc
    · exact paintWrites_bound _ _
        (resolve_pos _ iw ih (List.length_pos.mpr hseq)).1 _ 0
  · intro bs
    by_cases hseq : normalizeSeq text = []
    · intro reg hreg
      rw [hseq] at hreg
      simp [blockWrites] at hreg
    · exact blockWrites_bound _ _ bs
        (resolve_pos _ iw ih (List.length_pos.mpr hseq)).1 _ 0
  · intro hseq
    rw [hseq]
    exact ⟨rfl, fun bs => rfl⟩

